import Mathlib

/-!
Verification of the coverage delta engine of the `jacoco_delta` repository.

The Python dictionaries of the source are embedded as association lists:
a `dict` becomes a `List (key × value)`, `dict.get k dflt` becomes
`(l.lookup k).getD dflt`, membership tests become `List.lookup` tests, and
dictionary assignment (`d[k] = v`) becomes `dictInsert`, which updates the
value in place when the key exists and appends otherwise, exactly as a
Python dict does.  Sets of strings iterated with `sorted(...)` become
deduplicated, merge-sorted lists; sets of line numbers become `Finset Int`
enumerated with `Finset.sort`.
-/

namespace JacocoDelta

/-! ### Data model (src/jacoco_delta/utils/data_types.py)

`LineCoverageData  = dict[str, dict[int, int]]`
`BranchCoverageData = dict[str, dict[int, tuple[int, int]]]` -/

abbrev LineMap := List (Nat × Nat)

abbrev BranchMap := List (Nat × (Nat × Nat))

abbrev LineCoverageData := List (String × LineMap)

abbrev BranchCoverageData := List (String × BranchMap)

/-- Embedding of `d.get(key, dflt)` on a Python dict. -/
def dictGet {α β : Type} [BEq α] (d : List (α × β)) (key : α) (dflt : β) : β :=
  (d.lookup key).getD dflt

/-- Embedding of the Python dict assignment `d[key] = v`: if the key is
present its value is replaced in place, otherwise the pair is appended. -/
def dictInsert {α β : Type} [BEq α] (d : List (α × β)) (key : α) (v : β) : List (α × β) :=
  if d.any (fun p => p.1 == key) then
    d.map (fun p => if p.1 == key then (key, v) else p)
  else d ++ [(key, v)]

/-- Embedding of `sorted(set(first.keys()).union(set(second.keys())))`,
the file iteration order shared by the calculator and the differ. -/
def all_file_paths {β : Type} (first second : List (String × β)) : List String :=
  ((first.map Prod.fst) ++ (second.map Prod.fst)).dedup.mergeSort (fun a b => decide (a ≤ b))

/-! ### Delta calculator (src/jacoco_delta/core/calculator.py) -/

/-- Body of the per-file loop of `calculate_line_coverage_increment`: keep a
current line when it is absent from the baseline, or when the baseline count
is 0 and the current count is positive. -/
def line_increment_for_file (baseline_lines current_lines : LineMap) : LineMap :=
  current_lines.filter (fun p =>
    match baseline_lines.lookup p.1 with
    | none => true
    | some baseline_count => baseline_count == 0 && decide (0 < p.2))

/-- Embedding of `calculate_line_coverage_increment` (calculator.py lines 9-47). -/
def calculate_line_coverage_increment
    (baseline_coverage current_coverage : LineCoverageData) : LineCoverageData :=
  (all_file_paths baseline_coverage current_coverage).filterMap (fun file_path =>
    let added_or_improved_lines := line_increment_for_file
      (dictGet baseline_coverage file_path []) (dictGet current_coverage file_path [])
    if added_or_improved_lines.isEmpty then none
    else some (file_path, added_or_improved_lines))

/-- Body of the per-file loop of `calculate_branch_coverage_increment`: keep a
current line when it is absent from the baseline, or the totals agree and the
covered count strictly grew, or the total strictly grew and the covered count
is positive. -/
def branch_increment_for_file (baseline_branches current_branches : BranchMap) : BranchMap :=
  current_branches.filter (fun p =>
    match baseline_branches.lookup p.1 with
    | none => true
    | some q =>
      (q.2 == p.2.2 && decide (q.1 < p.2.1)) || (decide (q.2 < p.2.2) && decide (0 < p.2.1)))

/-- Embedding of `calculate_branch_coverage_increment` (calculator.py lines 75-118). -/
def calculate_branch_coverage_increment
    (baseline_coverage current_coverage : BranchCoverageData) : BranchCoverageData :=
  (all_file_paths baseline_coverage current_coverage).filterMap (fun file_path =>
    let added_or_improved_branches := branch_increment_for_file
      (dictGet baseline_coverage file_path []) (dictGet current_coverage file_path [])
    if added_or_improved_branches.isEmpty then none
    else some (file_path, added_or_improved_branches))

/-! ### Helper lemmas on the dictionary embedding -/

lemma mem_all_file_paths {β : Type} {first second : List (String × β)} {f : String} :
    f ∈ all_file_paths first second ↔
      f ∈ first.map Prod.fst ∨ f ∈ second.map Prod.fst := by
  simp [all_file_paths, List.mem_mergeSort, List.mem_dedup, List.mem_append]

lemma lookup_isSome_of_mem {α β : Type} [BEq α] [LawfulBEq α]
    {d : List (α × β)} {p : α × β} (h : p ∈ d) : (d.lookup p.1).isSome := by
  exact List.lookup_isSome_iff.mpr ⟨p, h, by simp⟩

lemma mem_keys_of_lookup_isSome {α β : Type} [BEq α] [LawfulBEq α]
    {d : List (α × β)} {k : α} (h : (d.lookup k).isSome) : k ∈ d.map Prod.fst := by
  rcases List.lookup_isSome_iff.mp h with ⟨p, hp, he⟩
  exact List.mem_map.mpr ⟨p, hp, (beq_iff_eq.mp he).symm⟩

lemma mem_keys_of_mem_dictGet {α γ : Type} [BEq α] [LawfulBEq α]
    {d : List (α × List γ)} {k : α} {x : γ} (h : x ∈ dictGet d k []) :
    k ∈ d.map Prod.fst := by
  rcases hl : d.lookup k with _ | m
  · rw [dictGet, hl] at h
    simp at h
  · exact mem_keys_of_lookup_isSome (by rw [hl]; rfl)

/-! ### C1: characterization of the line-coverage increment -/

lemma line_pred_iff {baseline_lines : LineMap} {n v : Nat} :
    ((match baseline_lines.lookup n with
      | none => true
      | some baseline_count => baseline_count == 0 && decide (0 < v)) = true) ↔
      (baseline_lines.lookup n = none ∨
        (baseline_lines.lookup n = some 0 ∧ 0 < v)) := by
  rcases h : baseline_lines.lookup n with _ | bc
  · simp
  · simp [h]

lemma mem_line_increment_iff {baseline current : LineCoverageData}
    {f : String} {m : LineMap} :
    (f, m) ∈ calculate_line_coverage_increment baseline current ↔
      f ∈ all_file_paths baseline current ∧
      m = line_increment_for_file (dictGet baseline f []) (dictGet current f []) ∧
      m ≠ [] := by
  simp only [calculate_line_coverage_increment, List.mem_filterMap]
  constructor
  · rintro ⟨a, ha, h⟩
    by_cases he :
        (line_increment_for_file (dictGet baseline a []) (dictGet current a [])).isEmpty
    · simp [he] at h
    · rw [if_neg he] at h
      have h' := Option.some.inj h
      have ha1 : a = f := congrArg Prod.fst h'
      have ha2 : line_increment_for_file (dictGet baseline a []) (dictGet current a []) = m :=
        congrArg Prod.snd h'
      subst ha1
      refine ⟨ha, ha2.symm, ?_⟩
      intro hnil
      exact he (List.isEmpty_iff.mpr (ha2.trans hnil))
  · rintro ⟨hf, rfl, hne⟩
    refine ⟨f, hf, ?_⟩
    rw [if_neg (fun he => hne (List.isEmpty_iff.mp he))]

/-- C1: a file/line pair appears in the line-increment result exactly when the
line is present in the current coverage and is either absent from the baseline
or recorded there with count 0 while the current count is positive; the value
kept is the current one, and a file only appears with a non-empty line map. -/
theorem line_increment_characterization (baseline current : LineCoverageData)
    (f : String) (n v : Nat) :
    ((∃ m, (f, m) ∈ calculate_line_coverage_increment baseline current ∧ (n, v) ∈ m) ↔
      ((n, v) ∈ dictGet current f [] ∧
        ((dictGet baseline f []).lookup n = none ∨
          ((dictGet baseline f []).lookup n = some 0 ∧ 0 < v)))) ∧
    (∀ m, (f, m) ∈ calculate_line_coverage_increment baseline current → m ≠ []) := by
  constructor
  · constructor
    · rintro ⟨m, hm, hnv⟩
      rcases mem_line_increment_iff.mp hm with ⟨-, rfl, -⟩
      rcases List.mem_filter.mp hnv with ⟨hin, hpred⟩
      exact ⟨hin, line_pred_iff.mp hpred⟩
    · rintro ⟨hin, hpred⟩
      refine ⟨line_increment_for_file (dictGet baseline f []) (dictGet current f []), ?_, ?_⟩
      · refine mem_line_increment_iff.mpr ⟨?_, rfl, ?_⟩
        · exact mem_all_file_paths.mpr (Or.inr (mem_keys_of_mem_dictGet hin))
        · exact List.ne_nil_of_mem
            (List.mem_filter.mpr ⟨hin, line_pred_iff.mpr hpred⟩)
      · exact List.mem_filter.mpr ⟨hin, line_pred_iff.mpr hpred⟩
  · intro m hm
    exact (mem_line_increment_iff.mp hm).2.2

theorem line_increment_characterization_witness :
    ∃ m, ("a.java", m) ∈ calculate_line_coverage_increment
        [("a.java", [(3, 0)])] [("a.java", [(3, 7), (4, 1)])] ∧ (3, 7) ∈ m :=
  (line_increment_characterization
    [("a.java", [(3, 0)])] [("a.java", [(3, 7), (4, 1)])] "a.java" 3 7).1.mpr (by decide)

/-! ### C2: characterization of the branch-coverage increment -/

lemma branch_pred_iff {baseline_branches : BranchMap} {n cov tot : Nat} :
    ((match baseline_branches.lookup n with
      | none => true
      | some q =>
        (q.2 == tot && decide (q.1 < cov)) ||
          (decide (q.2 < tot) && decide (0 < cov))) = true) ↔
      (baseline_branches.lookup n = none ∨
        (∃ bcov btot, baseline_branches.lookup n = some (bcov, btot) ∧
          ((btot = tot ∧ bcov < cov) ∨ (btot < tot ∧ 0 < cov)))) := by
  rcases h : baseline_branches.lookup n with _ | q
  · simp
  · rcases q with ⟨bcov, btot⟩
    simp only [h, Bool.or_eq_true, Bool.and_eq_true, beq_iff_eq, decide_eq_true_eq,
      reduceCtorEq, Option.some.injEq, Prod.mk.injEq, false_or]
    constructor
    · rintro (⟨h1, h2⟩ | ⟨h1, h2⟩)
      · exact ⟨bcov, btot, ⟨rfl, rfl⟩, Or.inl ⟨h1, h2⟩⟩
      · exact ⟨bcov, btot, ⟨rfl, rfl⟩, Or.inr ⟨h1, h2⟩⟩
    · rintro ⟨bcov', btot', ⟨rfl, rfl⟩, (⟨h1, h2⟩ | ⟨h1, h2⟩)⟩
      · exact Or.inl ⟨h1, h2⟩
      · exact Or.inr ⟨h1, h2⟩

lemma mem_branch_increment_iff {baseline current : BranchCoverageData}
    {f : String} {m : BranchMap} :
    (f, m) ∈ calculate_branch_coverage_increment baseline current ↔
      f ∈ all_file_paths baseline current ∧
      m = branch_increment_for_file (dictGet baseline f []) (dictGet current f []) ∧
      m ≠ [] := by
  simp only [calculate_branch_coverage_increment, List.mem_filterMap]
  constructor
  · rintro ⟨a, ha, h⟩
    by_cases he :
        (branch_increment_for_file (dictGet baseline a []) (dictGet current a [])).isEmpty
    · simp [he] at h
    · rw [if_neg he] at h
      have h' := Option.some.inj h
      have ha1 : a = f := congrArg Prod.fst h'
      have ha2 : branch_increment_for_file (dictGet baseline a []) (dictGet current a []) = m :=
        congrArg Prod.snd h'
      subst ha1
      refine ⟨ha, ha2.symm, ?_⟩
      intro hnil
      exact he (List.isEmpty_iff.mpr (ha2.trans hnil))
  · rintro ⟨hf, rfl, hne⟩
    refine ⟨f, hf, ?_⟩
    rw [if_neg (fun he => hne (List.isEmpty_iff.mp he))]

/-- C2: a file/line pair appears in the branch-increment result exactly when
the line is present in the current coverage and is either absent from the
baseline, or has an unchanged total with a strictly larger covered count, or a
strictly larger total with a positive covered count; the value kept is the
current (covered, total) pair, and a file only appears with a non-empty map.
A line whose total decreased satisfies none of the three cases, so it is never
included. -/
theorem branch_increment_characterization (baseline current : BranchCoverageData)
    (f : String) (n cov tot : Nat) :
    ((∃ m, (f, m) ∈ calculate_branch_coverage_increment baseline current ∧
        (n, (cov, tot)) ∈ m) ↔
      ((n, (cov, tot)) ∈ dictGet current f [] ∧
        ((dictGet baseline f []).lookup n = none ∨
          (∃ bcov btot, (dictGet baseline f []).lookup n = some (bcov, btot) ∧
            ((btot = tot ∧ bcov < cov) ∨ (btot < tot ∧ 0 < cov)))))) ∧
    (∀ m, (f, m) ∈ calculate_branch_coverage_increment baseline current → m ≠ []) := by
  constructor
  · constructor
    · rintro ⟨m, hm, hnv⟩
      rcases mem_branch_increment_iff.mp hm with ⟨-, rfl, -⟩
      rcases List.mem_filter.mp hnv with ⟨hin, hpred⟩
      exact ⟨hin, branch_pred_iff.mp hpred⟩
    · rintro ⟨hin, hpred⟩
      refine ⟨branch_increment_for_file (dictGet baseline f []) (dictGet current f []), ?_, ?_⟩
      · refine mem_branch_increment_iff.mpr ⟨?_, rfl, ?_⟩
        · exact mem_all_file_paths.mpr (Or.inr (mem_keys_of_mem_dictGet hin))
        · exact List.ne_nil_of_mem
            (List.mem_filter.mpr ⟨hin, branch_pred_iff.mpr hpred⟩)
      · exact List.mem_filter.mpr ⟨hin, branch_pred_iff.mpr hpred⟩
  · intro m hm
    exact (mem_branch_increment_iff.mp hm).2.2

theorem branch_increment_characterization_witness :
    ∃ m, ("a.java", m) ∈ calculate_branch_coverage_increment
        [("a.java", [(3, (1, 2))])] [("a.java", [(3, (2, 2)), (9, (1, 4))])] ∧
      (3, (2, 2)) ∈ m :=
  (branch_increment_characterization
    [("a.java", [(3, (1, 2))])] [("a.java", [(3, (2, 2)), (9, (1, 4))])]
    "a.java" 3 2 2).1.mpr ⟨by decide, Or.inr ⟨1, 2, by decide, Or.inl (by decide)⟩⟩

/-! ### Differ (src/jacoco_delta/core/differ.py) -/

/-- Embedding of the `LineCoverageDiff` dataclass of data_types.py. -/
structure LineCoverageDiff where
  only_in_first : LineMap
  only_in_second : LineMap
deriving DecidableEq, Repr

/-- Embedding of the `BranchCoverageDiff` dataclass of data_types.py. -/
structure BranchCoverageDiff where
  only_in_first : BranchMap
  only_in_second : BranchMap
deriving DecidableEq, Repr

/-- Embedding of `_compare_line_diff_for_file` (differ.py lines 10-30). -/
def _compare_line_diff_for_file (lines_in_first lines_in_second : LineMap) :
    LineCoverageDiff :=
  ⟨lines_in_first.filter (fun p => (lines_in_second.lookup p.1).isNone),
   lines_in_second.filter (fun p => (lines_in_first.lookup p.1).isNone)⟩

/-- Embedding of `_compare_branch_diff_for_file` (differ.py lines 33-53). -/
def _compare_branch_diff_for_file (branches_in_first branches_in_second : BranchMap) :
    BranchCoverageDiff :=
  ⟨branches_in_first.filter (fun p => (branches_in_second.lookup p.1).isNone),
   branches_in_second.filter (fun p => (branches_in_first.lookup p.1).isNone)⟩

/-- Embedding of `compare_line_diff` (differ.py lines 56-86). -/
def compare_line_diff (first second : LineCoverageData) :
    List (String × LineCoverageDiff) :=
  (all_file_paths first second).filterMap (fun file =>
    let file_diff := _compare_line_diff_for_file (dictGet first file []) (dictGet second file [])
    if file_diff.only_in_first.isEmpty && file_diff.only_in_second.isEmpty then none
    else some (file, file_diff))

/-- Embedding of `compare_branch_diff` (differ.py lines 89-119). -/
def compare_branch_diff (first second : BranchCoverageData) :
    List (String × BranchCoverageDiff) :=
  (all_file_paths first second).filterMap (fun file =>
    let file_diff := _compare_branch_diff_for_file (dictGet first file []) (dictGet second file [])
    if file_diff.only_in_first.isEmpty && file_diff.only_in_second.isEmpty then none
    else some (file, file_diff))

/-! ### C3 and C9: characterization of the diff -/

lemma mem_compare_line_diff_iff {first second : LineCoverageData}
    {f : String} {d : LineCoverageDiff} :
    (f, d) ∈ compare_line_diff first second ↔
      f ∈ all_file_paths first second ∧
      d = _compare_line_diff_for_file (dictGet first f []) (dictGet second f []) ∧
      (d.only_in_first ≠ [] ∨ d.only_in_second ≠ []) := by
  simp only [compare_line_diff, List.mem_filterMap]
  constructor
  · rintro ⟨a, ha, h⟩
    by_cases he :
        ((_compare_line_diff_for_file (dictGet first a []) (dictGet second a [])).only_in_first.isEmpty &&
          (_compare_line_diff_for_file (dictGet first a []) (dictGet second a [])).only_in_second.isEmpty) = true
    · simp only [he, if_true, reduceCtorEq] at h
    · rw [if_neg he] at h
      have h' := Option.some.inj h
      have ha1 : a = f := congrArg Prod.fst h'
      have ha2 : _compare_line_diff_for_file (dictGet first a []) (dictGet second a []) = d :=
        congrArg Prod.snd h'
      subst ha1
      refine ⟨ha, ha2.symm, ?_⟩
      rw [← ha2]
      by_contra hc
      push_neg at hc
      exact he (by simp [List.isEmpty_iff, hc.1, hc.2])
  · rintro ⟨hf, rfl, hne⟩
    refine ⟨f, hf, ?_⟩
    rw [if_neg ?_]
    intro he
    rcases Bool.and_eq_true .. ▸ he with ⟨h1, h2⟩
    rcases hne with hne | hne
    · exact hne (List.isEmpty_iff.mp h1)
    · exact hne (List.isEmpty_iff.mp h2)

lemma mem_compare_branch_diff_iff {first second : BranchCoverageData}
    {f : String} {d : BranchCoverageDiff} :
    (f, d) ∈ compare_branch_diff first second ↔
      f ∈ all_file_paths first second ∧
      d = _compare_branch_diff_for_file (dictGet first f []) (dictGet second f []) ∧
      (d.only_in_first ≠ [] ∨ d.only_in_second ≠ []) := by
  simp only [compare_branch_diff, List.mem_filterMap]
  constructor
  · rintro ⟨a, ha, h⟩
    by_cases he :
        ((_compare_branch_diff_for_file (dictGet first a []) (dictGet second a [])).only_in_first.isEmpty &&
          (_compare_branch_diff_for_file (dictGet first a []) (dictGet second a [])).only_in_second.isEmpty) = true
    · simp only [he, if_true, reduceCtorEq] at h
    · rw [if_neg he] at h
      have h' := Option.some.inj h
      have ha1 : a = f := congrArg Prod.fst h'
      have ha2 : _compare_branch_diff_for_file (dictGet first a []) (dictGet second a []) = d :=
        congrArg Prod.snd h'
      subst ha1
      refine ⟨ha, ha2.symm, ?_⟩
      rw [← ha2]
      by_contra hc
      push_neg at hc
      exact he (by simp [List.isEmpty_iff, hc.1, hc.2])
  · rintro ⟨hf, rfl, hne⟩
    refine ⟨f, hf, ?_⟩
    rw [if_neg ?_]
    intro he
    rcases Bool.and_eq_true .. ▸ he with ⟨h1, h2⟩
    rcases hne with hne | hne
    · exact hne (List.isEmpty_iff.mp h1)
    · exact hne (List.isEmpty_iff.mp h2)

lemma mem_only_in_first_iff {ma mb : LineMap} {n v : Nat} :
    (n, v) ∈ (_compare_line_diff_for_file ma mb).only_in_first ↔
      ((n, v) ∈ ma ∧ mb.lookup n = none) := by
  simp only [_compare_line_diff_for_file, List.mem_filter, Option.isNone_iff_eq_none]

lemma mem_branch_only_in_first_iff {ma mb : BranchMap} {n : Nat} {q : Nat × Nat} :
    (n, q) ∈ (_compare_branch_diff_for_file ma mb).only_in_first ↔
      ((n, q) ∈ ma ∧ mb.lookup n = none) := by
  simp only [_compare_branch_diff_for_file, List.mem_filter, Option.isNone_iff_eq_none]

/-- C3: per file, `only_in_first` holds exactly the entries of the first map
whose line key is absent from the second, `only_in_second` the entries of the
second map whose key is absent from the first (values are never compared), a
file occurs in the diff result exactly when one of the two mappings is
non-empty, and the diff stored for a file is the one computed from its two
line maps.  Both the line and the branch diff satisfy this. -/
theorem diff_characterization (first second : LineCoverageData)
    (bfirst bsecond : BranchCoverageData) (f : String) :
    (∀ d, (f, d) ∈ compare_line_diff first second →
      d = _compare_line_diff_for_file (dictGet first f []) (dictGet second f [])) ∧
    (∀ n v, (n, v) ∈ (_compare_line_diff_for_file (dictGet first f [])
        (dictGet second f [])).only_in_first ↔
      ((n, v) ∈ dictGet first f [] ∧ (dictGet second f []).lookup n = none)) ∧
    (∀ n v, (n, v) ∈ (_compare_line_diff_for_file (dictGet first f [])
        (dictGet second f [])).only_in_second ↔
      ((n, v) ∈ dictGet second f [] ∧ (dictGet first f []).lookup n = none)) ∧
    ((∃ d, (f, d) ∈ compare_line_diff first second) ↔
      ((_compare_line_diff_for_file (dictGet first f [])
          (dictGet second f [])).only_in_first ≠ [] ∨
        (_compare_line_diff_for_file (dictGet first f [])
          (dictGet second f [])).only_in_second ≠ [])) ∧
    (∀ d, (f, d) ∈ compare_branch_diff bfirst bsecond →
      d = _compare_branch_diff_for_file (dictGet bfirst f []) (dictGet bsecond f [])) ∧
    (∀ n q, (n, q) ∈ (_compare_branch_diff_for_file (dictGet bfirst f [])
        (dictGet bsecond f [])).only_in_first ↔
      ((n, q) ∈ dictGet bfirst f [] ∧ (dictGet bsecond f []).lookup n = none)) ∧
    (∀ n q, (n, q) ∈ (_compare_branch_diff_for_file (dictGet bfirst f [])
        (dictGet bsecond f [])).only_in_second ↔
      ((n, q) ∈ dictGet bsecond f [] ∧ (dictGet bfirst f []).lookup n = none)) ∧
    ((∃ d, (f, d) ∈ compare_branch_diff bfirst bsecond) ↔
      ((_compare_branch_diff_for_file (dictGet bfirst f [])
          (dictGet bsecond f [])).only_in_first ≠ [] ∨
        (_compare_branch_diff_for_file (dictGet bfirst f [])
          (dictGet bsecond f [])).only_in_second ≠ [])) := by
  refine ⟨?_, ?_, ?_, ?_, ?_, ?_, ?_, ?_⟩
  · intro d hd
    exact (mem_compare_line_diff_iff.mp hd).2.1
  · intro n v
    exact mem_only_in_first_iff
  · intro n v
    simp only [_compare_line_diff_for_file, List.mem_filter, Option.isNone_iff_eq_none]
  · constructor
    · rintro ⟨d, hd⟩
      rcases mem_compare_line_diff_iff.mp hd with ⟨-, rfl, hne⟩
      exact hne
    · intro hne
      refine ⟨_, mem_compare_line_diff_iff.mpr ⟨?_, rfl, hne⟩⟩
      rcases hne with hne | hne
      · rcases List.exists_mem_of_ne_nil _ hne with ⟨p, hp⟩
        rcases p with ⟨n, v⟩
        exact mem_all_file_paths.mpr (Or.inl
          (mem_keys_of_mem_dictGet (mem_only_in_first_iff.mp hp).1))
      · rcases List.exists_mem_of_ne_nil _ hne with ⟨p, hp⟩
        rcases p with ⟨n, v⟩
        rcases List.mem_filter.mp hp with ⟨hin, -⟩
        exact mem_all_file_paths.mpr (Or.inr (mem_keys_of_mem_dictGet hin))
  · intro d hd
    exact (mem_compare_branch_diff_iff.mp hd).2.1
  · intro n q
    exact mem_branch_only_in_first_iff
  · intro n q
    simp only [_compare_branch_diff_for_file, List.mem_filter, Option.isNone_iff_eq_none]
  · constructor
    · rintro ⟨d, hd⟩
      rcases mem_compare_branch_diff_iff.mp hd with ⟨-, rfl, hne⟩
      exact hne
    · intro hne
      refine ⟨_, mem_compare_branch_diff_iff.mpr ⟨?_, rfl, hne⟩⟩
      rcases hne with hne | hne
      · rcases List.exists_mem_of_ne_nil _ hne with ⟨p, hp⟩
        rcases p with ⟨n, q⟩
        exact mem_all_file_paths.mpr (Or.inl
          (mem_keys_of_mem_dictGet (mem_branch_only_in_first_iff.mp hp).1))
      · rcases List.exists_mem_of_ne_nil _ hne with ⟨p, hp⟩
        rcases p with ⟨n, q⟩
        rcases List.mem_filter.mp hp with ⟨hin, -⟩
        exact mem_all_file_paths.mpr (Or.inr (mem_keys_of_mem_dictGet hin))

theorem diff_characterization_witness :
    ∃ d, ("a.java", d) ∈ compare_line_diff
      [("a.java", [(1, 2)])] [("a.java", [(2, 5)])] :=
  (diff_characterization [("a.java", [(1, 2)])] [("a.java", [(2, 5)])]
    [] [] "a.java").2.2.2.1.mpr (by decide)

/-- C9: diffing a line-coverage data set against itself yields the empty
result: no file appears, because no line key is on exactly one side. -/
theorem line_diff_self_empty (a : LineCoverageData) : compare_line_diff a a = [] := by
  unfold compare_line_diff
  apply List.filterMap_eq_nil_iff.mpr
  intro f hf
  have hfirst : (dictGet a f []).filter
      (fun p => ((dictGet a f []).lookup p.1).isNone) = [] := by
    apply List.filter_eq_nil_iff.mpr
    intro p hp
    simp [lookup_isSome_of_mem hp, Option.isNone_iff_eq_none,
      Option.isSome_iff_ne_none.mp (lookup_isSome_of_mem hp)]
  simp only [_compare_line_diff_for_file, hfirst]
  rfl

/-! ### Coverage report shape and parser (src/jacoco_delta/core/parser.py)

The report is the XML hierarchy the parser walks: `package` nodes with an
optional `name` attribute, `sourcefile` nodes with an optional `name`, and
`line` nodes with optional numeric attributes `nr`, `ci`, `mb`, `cb`, every
absent attribute defaulting to 0 via `elem.get(attr, 0)`. -/

structure LineElem where
  nr : Option Nat
  ci : Option Nat
  mb : Option Nat
  cb : Option Nat
deriving DecidableEq, Repr

structure SourcefileElem where
  name : Option String
  lines : List LineElem
deriving DecidableEq, Repr

structure PackageElem where
  name : Option String
  sourcefiles : List SourcefileElem
deriving DecidableEq, Repr

structure Report where
  packages : List PackageElem
deriving DecidableEq, Repr

/-- Embedding of the path construction
`f"{0}/{1}".format(package_name, source_file) if package_name else source_file`. -/
def sourcefilePath (package_name source_file : String) : String :=
  if package_name = "" then source_file else package_name ++ "/" ++ source_file

/-- Loop body building the per-sourcefile line dict of
`parse_jacoco_line_coverage`: record `nr -> ci` when `ci > 0`. -/
def lineStep (lines : LineMap) (line : LineElem) : LineMap :=
  if 0 < line.ci.getD 0 then dictInsert lines (line.nr.getD 0) (line.ci.getD 0) else lines

def lineDictOf (line_elems : List LineElem) : LineMap :=
  line_elems.foldl lineStep []

/-- Loop body building the per-sourcefile branch dict of
`parse_jacoco_branch_coverage`: record `nr -> (cb, mb + cb)` when `mb + cb > 0`. -/
def branchStep (lines : BranchMap) (line : LineElem) : BranchMap :=
  if 0 < line.mb.getD 0 + line.cb.getD 0 then
    dictInsert lines (line.nr.getD 0) (line.cb.getD 0, line.mb.getD 0 + line.cb.getD 0)
  else lines

def branchDictOf (line_elems : List LineElem) : BranchMap :=
  line_elems.foldl branchStep []

/-- Shared sourcefile loop body of the two parsers: skip a sourcefile with a
missing or empty name, build its per-line dict with `dictOf`, and store it
under the constructed path when it is non-empty. -/
def sourceStep {γ : Type} (dictOf : List LineElem → List (Nat × γ)) (package_name : String)
    (coverage : List (String × List (Nat × γ))) (source_elem : SourcefileElem) :
    List (String × List (Nat × γ)) :=
  match source_elem.name with
  | none => coverage
  | some source_file =>
    if source_file = "" then coverage
    else if (dictOf source_elem.lines).isEmpty then coverage
    else dictInsert coverage (sourcefilePath package_name source_file) (dictOf source_elem.lines)

/-- Shared package loop body of the two parsers. -/
def packageStep {γ : Type} (dictOf : List LineElem → List (Nat × γ))
    (coverage : List (String × List (Nat × γ))) (package_elem : PackageElem) :
    List (String × List (Nat × γ)) :=
  package_elem.sourcefiles.foldl (sourceStep dictOf (package_elem.name.getD "")) coverage

/-- Embedding of `parse_jacoco_line_coverage` (parser.py lines 13-50). -/
def parse_jacoco_line_coverage (report : Report) : LineCoverageData :=
  report.packages.foldl (packageStep lineDictOf) []

/-- Embedding of `parse_jacoco_branch_coverage` (parser.py lines 76-114). -/
def parse_jacoco_branch_coverage (report : Report) : BranchCoverageData :=
  report.packages.foldl (packageStep branchDictOf) []

/-! ### Dictionary insertion lemmas -/

lemma mem_of_mem_dictInsert {α β : Type} [BEq α] [LawfulBEq α]
    {d : List (α × β)} {k : α} {v : β} {p : α × β}
    (h : p ∈ dictInsert d k v) : p ∈ d ∨ p = (k, v) := by
  unfold dictInsert at h
  split at h
  · rcases List.mem_map.mp h with ⟨q, hq, he⟩
    by_cases hk : (q.1 == k) = true
    · right
      rw [if_pos hk] at he
      exact he.symm
    · left
      rw [if_neg hk] at he
      exact he ▸ hq
  · rcases List.mem_append.mp h with h | h
    · exact Or.inl h
    · right
      simpa using h

lemma fst_mem_dictInsert_iff {α β : Type} [BEq α] [LawfulBEq α]
    {d : List (α × β)} {k a : α} {v : β} :
    a ∈ (dictInsert d k v).map Prod.fst ↔ a ∈ d.map Prod.fst ∨ a = k := by
  unfold dictInsert
  split
  case isTrue h =>
    have hkeys : (d.map (fun p => if p.1 == k then (k, v) else p)).map Prod.fst =
        d.map Prod.fst := by
      rw [List.map_map]
      apply List.map_congr_left
      intro p _
      by_cases hk : (p.1 == k) = true
      · simp only [Function.comp_apply, if_pos hk]
        exact (beq_iff_eq.mp hk).symm
      · simp only [Function.comp_apply, if_neg hk]
    rw [hkeys]
    constructor
    · exact Or.inl
    · rintro (h' | rfl)
      · exact h'
      · rcases List.any_eq_true.mp h with ⟨q, hq, he⟩
        exact List.mem_map.mpr ⟨q, hq, beq_iff_eq.mp he⟩
  case isFalse h =>
    simp [List.mem_append, or_comm]

/-! ### Per-sourcefile dict characterization -/

lemma mem_foldl_lineStep {ls : List LineElem} {acc : LineMap} {p : Nat × Nat}
    (h : p ∈ ls.foldl lineStep acc) :
    p ∈ acc ∨ ∃ l ∈ ls, l.nr.getD 0 = p.1 ∧ l.ci.getD 0 = p.2 ∧ 0 < p.2 := by
  induction ls generalizing acc with
  | nil => exact Or.inl h
  | cons l ls ih =>
    rcases ih (List.foldl_cons .. ▸ h) with h' | ⟨l', hl', h1, h2, h3⟩
    · unfold lineStep at h'
      split at h'
      case isTrue hci =>
        rcases mem_of_mem_dictInsert h' with h'' | rfl
        · exact Or.inl h''
        · exact Or.inr ⟨l, List.mem_cons_self .., rfl, rfl, hci⟩
      case isFalse hci => exact Or.inl h'
    · exact Or.inr ⟨l', List.mem_cons_of_mem _ hl', h1, h2, h3⟩

lemma keys_foldl_lineStep {ls : List LineElem} {acc : LineMap} {a : Nat} :
    a ∈ (ls.foldl lineStep acc).map Prod.fst ↔
      a ∈ acc.map Prod.fst ∨ ∃ l ∈ ls, l.nr.getD 0 = a ∧ 0 < l.ci.getD 0 := by
  induction ls generalizing acc with
  | nil => simp
  | cons l ls ih =>
    rw [List.foldl_cons, ih]
    unfold lineStep
    split
    case isTrue hci =>
      rw [fst_mem_dictInsert_iff]
      constructor
      · rintro ((h | rfl) | h)
        · exact Or.inl h
        · exact Or.inr ⟨l, List.mem_cons_self .., rfl, hci⟩
        · rcases h with ⟨l', hl', h1, h2⟩
          exact Or.inr ⟨l', List.mem_cons_of_mem _ hl', h1, h2⟩
      · rintro (h | ⟨l', hl', h1, h2⟩)
        · exact Or.inl (Or.inl h)
        · rcases List.mem_cons.mp hl' with rfl | hl'
          · exact Or.inl (Or.inr h1.symm)
          · exact Or.inr ⟨l', hl', h1, h2⟩
    case isFalse hci =>
      constructor
      · rintro (h | ⟨l', hl', h1, h2⟩)
        · exact Or.inl h
        · exact Or.inr ⟨l', List.mem_cons_of_mem _ hl', h1, h2⟩
      · rintro (h | ⟨l', hl', h1, h2⟩)
        · exact Or.inl h
        · rcases List.mem_cons.mp hl' with rfl | hl'
          · exact absurd h2 hci
          · exact Or.inr ⟨l', hl', h1, h2⟩

lemma mem_foldl_branchStep {ls : List LineElem} {acc : BranchMap} {p : Nat × (Nat × Nat)}
    (h : p ∈ ls.foldl branchStep acc) :
    p ∈ acc ∨ ∃ l ∈ ls, l.nr.getD 0 = p.1 ∧
      p.2 = (l.cb.getD 0, l.mb.getD 0 + l.cb.getD 0) ∧ 0 < l.mb.getD 0 + l.cb.getD 0 := by
  induction ls generalizing acc with
  | nil => exact Or.inl h
  | cons l ls ih =>
    rcases ih (List.foldl_cons .. ▸ h) with h' | ⟨l', hl', h1, h2, h3⟩
    · unfold branchStep at h'
      split at h'
      case isTrue htot =>
        rcases mem_of_mem_dictInsert h' with h'' | rfl
        · exact Or.inl h''
        · exact Or.inr ⟨l, List.mem_cons_self .., rfl, rfl, htot⟩
      case isFalse htot => exact Or.inl h'
    · exact Or.inr ⟨l', List.mem_cons_of_mem _ hl', h1, h2, h3⟩

lemma keys_foldl_branchStep {ls : List LineElem} {acc : BranchMap} {a : Nat} :
    a ∈ (ls.foldl branchStep acc).map Prod.fst ↔
      a ∈ acc.map Prod.fst ∨
        ∃ l ∈ ls, l.nr.getD 0 = a ∧ 0 < l.mb.getD 0 + l.cb.getD 0 := by
  induction ls generalizing acc with
  | nil => simp
  | cons l ls ih =>
    rw [List.foldl_cons, ih]
    unfold branchStep
    split
    case isTrue htot =>
      rw [fst_mem_dictInsert_iff]
      constructor
      · rintro ((h | rfl) | h)
        · exact Or.inl h
        · exact Or.inr ⟨l, List.mem_cons_self .., rfl, htot⟩
        · rcases h with ⟨l', hl', h1, h2⟩
          exact Or.inr ⟨l', List.mem_cons_of_mem _ hl', h1, h2⟩
      · rintro (h | ⟨l', hl', h1, h2⟩)
        · exact Or.inl (Or.inl h)
        · rcases List.mem_cons.mp hl' with rfl | hl'
          · exact Or.inl (Or.inr h1.symm)
          · exact Or.inr ⟨l', hl', h1, h2⟩
    case isFalse htot =>
      constructor
      · rintro (h | ⟨l', hl', h1, h2⟩)
        · exact Or.inl h
        · exact Or.inr ⟨l', List.mem_cons_of_mem _ hl', h1, h2⟩
      · rintro (h | ⟨l', hl', h1, h2⟩)
        · exact Or.inl h
        · rcases List.mem_cons.mp hl' with rfl | hl'
          · exact absurd h2 htot
          · exact Or.inr ⟨l', hl', h1, h2⟩

/-! ### Parse-level soundness and completeness -/

lemma sourceStep_eq_none {γ : Type} {dictOf : List LineElem → List (Nat × γ)}
    {pname : String} {acc : List (String × List (Nat × γ))} {src : SourcefileElem}
    (hn : src.name = none) : sourceStep dictOf pname acc src = acc := by
  unfold sourceStep
  rw [hn]

lemma sourceStep_eq_some {γ : Type} {dictOf : List LineElem → List (Nat × γ)}
    {pname : String} {acc : List (String × List (Nat × γ))} {src : SourcefileElem}
    {sname : String} (hn : src.name = some sname) :
    sourceStep dictOf pname acc src =
      if sname = "" then acc
      else if (dictOf src.lines).isEmpty then acc
      else dictInsert acc (sourcefilePath pname sname) (dictOf src.lines) := by
  unfold sourceStep
  rw [hn]

lemma mem_sourceStep {γ : Type} {dictOf : List LineElem → List (Nat × γ)}
    {pname : String} {acc : List (String × List (Nat × γ))} {src : SourcefileElem}
    {q : String × List (Nat × γ)} (h : q ∈ sourceStep dictOf pname acc src) :
    q ∈ acc ∨ ∃ sname, src.name = some sname ∧ sname ≠ "" ∧
      q = (sourcefilePath pname sname, dictOf src.lines) ∧ dictOf src.lines ≠ [] := by
  rcases hn : src.name with _ | sname
  · rw [sourceStep_eq_none hn] at h
    exact Or.inl h
  · rw [sourceStep_eq_some hn] at h
    by_cases hse : sname = ""
    · rw [if_pos hse] at h
      exact Or.inl h
    · rw [if_neg hse] at h
      by_cases hle : (dictOf src.lines).isEmpty
      · rw [if_pos hle] at h
        exact Or.inl h
      · rw [if_neg hle] at h
        rcases mem_of_mem_dictInsert h with h' | rfl
        · exact Or.inl h'
        · exact Or.inr ⟨sname, rfl, hse, rfl, fun hnil => hle (List.isEmpty_iff.mpr hnil)⟩

lemma mem_foldl_sourceStep {γ : Type} {dictOf : List LineElem → List (Nat × γ)}
    {pname : String} {srcs : List SourcefileElem}
    {acc : List (String × List (Nat × γ))} {q : String × List (Nat × γ)}
    (h : q ∈ srcs.foldl (sourceStep dictOf pname) acc) :
    q ∈ acc ∨ ∃ src ∈ srcs, ∃ sname, src.name = some sname ∧ sname ≠ "" ∧
      q = (sourcefilePath pname sname, dictOf src.lines) ∧ dictOf src.lines ≠ [] := by
  induction srcs generalizing acc with
  | nil => exact Or.inl h
  | cons src srcs ih =>
    rcases ih (List.foldl_cons .. ▸ h) with h' | ⟨s', hs', r⟩
    · rcases mem_sourceStep h' with h'' | ⟨sname, r⟩
      · exact Or.inl h''
      · exact Or.inr ⟨src, List.mem_cons_self .., sname, r⟩
    · exact Or.inr ⟨s', List.mem_cons_of_mem _ hs', r⟩

lemma mem_parse_foldl_sound {γ : Type} {dictOf : List LineElem → List (Nat × γ)}
    {pkgs : List PackageElem} {acc : List (String × List (Nat × γ))}
    {q : String × List (Nat × γ)}
    (h : q ∈ pkgs.foldl (packageStep dictOf) acc) :
    q ∈ acc ∨ ∃ pkg ∈ pkgs, ∃ src ∈ pkg.sourcefiles, ∃ sname,
      src.name = some sname ∧ sname ≠ "" ∧
      q = (sourcefilePath (pkg.name.getD "") sname, dictOf src.lines) ∧
      dictOf src.lines ≠ [] := by
  induction pkgs generalizing acc with
  | nil => exact Or.inl h
  | cons pkg pkgs ih =>
    rcases ih (List.foldl_cons .. ▸ h) with h' | ⟨p', hp', r⟩
    · rcases mem_foldl_sourceStep h' with h'' | ⟨src, hsrc, r⟩
      · exact Or.inl h''
      · exact Or.inr ⟨pkg, List.mem_cons_self .., src, hsrc, r⟩
    · exact Or.inr ⟨p', List.mem_cons_of_mem _ hp', r⟩

lemma keys_mono_dictInsert {α β : Type} [BEq α] [LawfulBEq α]
    {d : List (α × β)} {k a : α} {v : β} (h : a ∈ d.map Prod.fst) :
    a ∈ (dictInsert d k v).map Prod.fst :=
  fst_mem_dictInsert_iff.mpr (Or.inl h)

lemma keys_mono_sourceStep {γ : Type} {dictOf : List LineElem → List (Nat × γ)}
    {pname : String} {acc : List (String × List (Nat × γ))} {src : SourcefileElem}
    {a : String} (h : a ∈ acc.map Prod.fst) :
    a ∈ (sourceStep dictOf pname acc src).map Prod.fst := by
  rcases hn : src.name with _ | sname
  · rw [sourceStep_eq_none hn]
    exact h
  · rw [sourceStep_eq_some hn]
    by_cases hse : sname = ""
    · rw [if_pos hse]
      exact h
    · rw [if_neg hse]
      by_cases hle : (dictOf src.lines).isEmpty
      · rw [if_pos hle]
        exact h
      · rw [if_neg hle]
        exact keys_mono_dictInsert h

lemma keys_mono_foldl_sourceStep {γ : Type} {dictOf : List LineElem → List (Nat × γ)}
    {pname : String} {srcs : List SourcefileElem}
    {acc : List (String × List (Nat × γ))} {a : String} (h : a ∈ acc.map Prod.fst) :
    a ∈ (srcs.foldl (sourceStep dictOf pname) acc).map Prod.fst := by
  induction srcs generalizing acc with
  | nil => exact h
  | cons src srcs ih => exact ih (keys_mono_sourceStep h)

lemma keys_mono_foldl_packageStep {γ : Type} {dictOf : List LineElem → List (Nat × γ)}
    {pkgs : List PackageElem} {acc : List (String × List (Nat × γ))}
    {a : String} (h : a ∈ acc.map Prod.fst) :
    a ∈ (pkgs.foldl (packageStep dictOf) acc).map Prod.fst := by
  induction pkgs generalizing acc with
  | nil => exact h
  | cons pkg pkgs ih => exact ih (keys_mono_foldl_sourceStep h)

lemma key_complete_foldl_sourceStep {γ : Type} {dictOf : List LineElem → List (Nat × γ)}
    {pname : String} {srcs : List SourcefileElem}
    {acc : List (String × List (Nat × γ))} {src : SourcefileElem} {sname : String}
    (hsrc : src ∈ srcs) (hn : src.name = some sname) (hne : sname ≠ "")
    (hd : dictOf src.lines ≠ []) :
    sourcefilePath pname sname ∈
      (srcs.foldl (sourceStep dictOf pname) acc).map Prod.fst := by
  induction srcs generalizing acc with
  | nil => exact absurd hsrc (List.not_mem_nil _)
  | cons s srcs ih =>
    rw [List.foldl_cons]
    rcases List.mem_cons.mp hsrc with rfl | hsrc'
    · apply keys_mono_foldl_sourceStep
      rw [sourceStep_eq_some hn, if_neg hne,
        if_neg (fun he => hd (List.isEmpty_iff.mp he))]
      exact fst_mem_dictInsert_iff.mpr (Or.inr rfl)
    · exact ih hsrc'

lemma key_complete_parse {γ : Type} {dictOf : List LineElem → List (Nat × γ)}
    {pkgs : List PackageElem} {acc : List (String × List (Nat × γ))}
    {pkg : PackageElem} {src : SourcefileElem} {sname : String}
    (hpkg : pkg ∈ pkgs) (hsrc : src ∈ pkg.sourcefiles)
    (hn : src.name = some sname) (hne : sname ≠ "") (hd : dictOf src.lines ≠ []) :
    sourcefilePath (pkg.name.getD "") sname ∈
      (pkgs.foldl (packageStep dictOf) acc).map Prod.fst := by
  induction pkgs generalizing acc with
  | nil => exact absurd hpkg (List.not_mem_nil _)
  | cons p pkgs ih =>
    rw [List.foldl_cons]
    rcases List.mem_cons.mp hpkg with rfl | hpkg'
    · exact keys_mono_foldl_packageStep
        (key_complete_foldl_sourceStep hsrc hn hne hd)
    · exact ih hpkg'

/-! ### C6: what the two parsers record -/

/-- C6: the line parser stores only positive hit counts, each taken from a
line element with `ci > 0`, and a sourcefile dict holds a line number exactly
when some line element carries it with `ci > 0`; the branch parser stores only
pairs `(cb, mb + cb)` with a positive total, each taken from a line element
with `mb + cb > 0`, and a sourcefile branch dict holds a line number exactly
when some line element carries it with `mb + cb > 0` — in particular a pair
`(0, total)` with `total > 0` is produced and kept.  Each parser also stores
every non-empty sourcefile dict under the path built from the package and
sourcefile names. -/
theorem parser_record_characterization (report : Report) :
    (∀ f m, (f, m) ∈ parse_jacoco_line_coverage report → ∀ n v, (n, v) ∈ m →
      0 < v ∧ ∃ pkg ∈ report.packages, ∃ src ∈ pkg.sourcefiles, ∃ l ∈ src.lines,
        l.nr.getD 0 = n ∧ l.ci.getD 0 = v) ∧
    (∀ ls n, n ∈ (lineDictOf ls).map Prod.fst ↔
      ∃ l ∈ ls, l.nr.getD 0 = n ∧ 0 < l.ci.getD 0) ∧
    (∀ pkg ∈ report.packages, ∀ src ∈ pkg.sourcefiles, ∀ sname,
      src.name = some sname → sname ≠ "" → lineDictOf src.lines ≠ [] →
        sourcefilePath (pkg.name.getD "") sname ∈
          (parse_jacoco_line_coverage report).map Prod.fst) ∧
    (∀ f m, (f, m) ∈ parse_jacoco_branch_coverage report → ∀ n cov tot, (n, (cov, tot)) ∈ m →
      0 < tot ∧ ∃ pkg ∈ report.packages, ∃ src ∈ pkg.sourcefiles, ∃ l ∈ src.lines,
        l.nr.getD 0 = n ∧ l.cb.getD 0 = cov ∧ l.mb.getD 0 + l.cb.getD 0 = tot) ∧
    (∀ ls n, n ∈ (branchDictOf ls).map Prod.fst ↔
      ∃ l ∈ ls, l.nr.getD 0 = n ∧ 0 < l.mb.getD 0 + l.cb.getD 0) ∧
    (∀ pkg ∈ report.packages, ∀ src ∈ pkg.sourcefiles, ∀ sname,
      src.name = some sname → sname ≠ "" → branchDictOf src.lines ≠ [] →
        sourcefilePath (pkg.name.getD "") sname ∈
          (parse_jacoco_branch_coverage report).map Prod.fst) := by
  refine ⟨?_, ?_, ?_, ?_, ?_, ?_⟩
  · intro f m hm n v hnv
    rcases mem_parse_foldl_sound hm with h | ⟨pkg, hpkg, src, hsrc, sname, hn, hne, hq, hd⟩
    · exact absurd h (List.not_mem_nil _)
    · have hm' : m = lineDictOf src.lines := congrArg Prod.snd hq
      rcases mem_foldl_lineStep (hm' ▸ hnv) with h | ⟨l, hl, h1, h2, h3⟩
      · exact absurd h (List.not_mem_nil _)
      · exact ⟨h3, pkg, hpkg, src, hsrc, l, hl, h1, h2⟩
  · intro ls n
    rw [lineDictOf, keys_foldl_lineStep]
    simp
  · intro pkg hpkg src hsrc sname hn hne hd
    exact key_complete_parse hpkg hsrc hn hne hd
  · intro f m hm n cov tot hnv
    rcases mem_parse_foldl_sound hm with h | ⟨pkg, hpkg, src, hsrc, sname, hn, hne, hq, hd⟩
    · exact absurd h (List.not_mem_nil _)
    · have hm' : m = branchDictOf src.lines := congrArg Prod.snd hq
      rcases mem_foldl_branchStep (hm' ▸ hnv) with h | ⟨l, hl, h1, h2, h3⟩
      · exact absurd h (List.not_mem_nil _)
      · have hcov : l.cb.getD 0 = cov := (congrArg Prod.fst h2).symm
        have htot : l.mb.getD 0 + l.cb.getD 0 = tot := (congrArg Prod.snd h2).symm
        exact ⟨htot ▸ h3, pkg, hpkg, src, hsrc, l, hl, h1, hcov, htot⟩
  · intro ls n
    rw [branchDictOf, keys_foldl_branchStep]
    simp
  · intro pkg hpkg src hsrc sname hn hne hd
    exact key_complete_parse hpkg hsrc hn hne hd

/-- Report with one package and one sourcefile used to instantiate the parser
theorems on concrete data. -/
def exampleReport : Report :=
  ⟨[⟨some "com", [⟨some "A.java", [⟨some 3, some 2, some 1, some 1⟩,
      ⟨some 5, some 0, some 0, some 0⟩]⟩]⟩]⟩

theorem parser_record_characterization_witness :
    0 < 2 ∧ ∃ pkg ∈ exampleReport.packages, ∃ src ∈ pkg.sourcefiles, ∃ l ∈ src.lines,
      l.nr.getD 0 = 3 ∧ l.ci.getD 0 = 2 :=
  (parser_record_characterization exampleReport).1 "com/A.java" [(3, 2)]
    (by decide) 3 2 (by decide)

/-! ### C7: positivity of the recorded line-number keys

The claim asserts that every line-number key returned by the parsers is
positive even though an absent `nr` attribute defaults to 0.  The code has no
guard on `nr`: a line element without `nr` but with `ci > 0` is recorded under
the key 0, so the claim fails; it holds as soon as every line element carries
a positive (possibly defaulted) `nr` value. -/

/-- Report whose single line element has no `nr` attribute and `ci = 1`. -/
def missingNrReport : Report :=
  ⟨[⟨some "", [⟨some "A.java", [⟨none, some 1, none, none⟩]⟩]⟩]⟩

/-- C7 counterexample: on a report whose line element lacks `nr`, the line
parser records the non-positive key 0 (with hit count 1, under the bare
sourcefile name since the package name is empty). -/
theorem parser_key_zero_counterexample :
    (0 : Nat) ∈ (dictGet (parse_jacoco_line_coverage missingNrReport)
      "A.java" []).map Prod.fst := by decide

/-- C7 amended: provided every line element of the report has a positive
defaulted `nr` value (in particular the `nr` attribute is present), every
line-number key in both parser outputs is positive. -/
theorem parser_keys_positive (report : Report)
    (h : ∀ pkg ∈ report.packages, ∀ src ∈ pkg.sourcefiles, ∀ l ∈ src.lines,
      0 < l.nr.getD 0) :
    (∀ f m, (f, m) ∈ parse_jacoco_line_coverage report → ∀ n v, (n, v) ∈ m → 0 < n) ∧
    (∀ f m, (f, m) ∈ parse_jacoco_branch_coverage report → ∀ n q, (n, q) ∈ m → 0 < n) := by
  constructor
  · intro f m hm n v hnv
    rcases mem_parse_foldl_sound hm with hq | ⟨pkg, hpkg, src, hsrc, sname, hn, hne, hq, hd⟩
    · exact absurd hq (List.not_mem_nil _)
    · have hm' : m = lineDictOf src.lines := congrArg Prod.snd hq
      rcases mem_foldl_lineStep (hm' ▸ hnv) with hq' | ⟨l, hl, h1, -, -⟩
      · exact absurd hq' (List.not_mem_nil _)
      · have hpos := h pkg hpkg src hsrc l hl
        rw [h1] at hpos
        exact hpos
  · intro f m hm n q hnv
    rcases mem_parse_foldl_sound hm with hq | ⟨pkg, hpkg, src, hsrc, sname, hn, hne, hq, hd⟩
    · exact absurd hq (List.not_mem_nil _)
    · have hm' : m = branchDictOf src.lines := congrArg Prod.snd hq
      rcases mem_foldl_branchStep (hm' ▸ hnv) with hq' | ⟨l, hl, h1, -, -⟩
      · exact absurd hq' (List.not_mem_nil _)
      · have hpos := h pkg hpkg src hsrc l hl
        rw [h1] at hpos
        exact hpos

theorem parser_keys_positive_witness : 0 < 3 :=
  (parser_keys_positive exampleReport (by decide)).1 "com/A.java" [(3, 2)]
    (by decide) 3 2 (by decide)

/-! ### Range windower (src/jacoco_delta/utils/report_generator.py, lines 134-187)

`_get_extended_line_range(line_numbers, max_lines, context_lines)` pads each
interesting line with context, merges overlapping or adjacent windows, and
emits every line of each merged window tagged `False`, with a `(-1, True)`
separator between consecutive windows.  Line numbers are Python ints, so the
embedding uses `Int`; the input set becomes a `Finset Int` enumerated by
`Finset.sort`, the model of `sorted(list(line_numbers))`. -/

/-- Embedding of the emission of one range:
`for line_num in range(start, end + 1): append((line_num, False))`. -/
def rangeLines (start stop : Int) : List (Int × Bool) :=
  (List.range (stop + 1 - start).toNat).map (fun (i : Nat) => (start + (i : Int), false))

/-- Embedding of the range-merging loop: fold the remaining candidate windows
into the current one while the next start is at most the current end plus 1. -/
def mergeLoop : Int × Int → List (Int × Int) → List (Int × Int)
  | cur, [] => [cur]
  | cur, (s, e) :: rest =>
    if s ≤ cur.2 + 1 then mergeLoop (cur.1, max cur.2 e) rest
    else cur :: mergeLoop (s, e) rest

/-- Embedding of the `merged_ranges` computation: nothing to merge when there
are no candidate windows. -/
def merge_overlapping_ranges : List (Int × Int) → List (Int × Int)
  | [] => []
  | r :: rs => mergeLoop r rs

/-- Embedding of the final emission loop: all lines of each merged range, and
a `(-1, true)` separator after every range except the last. -/
def emitRanges : List (Int × Int) → List (Int × Bool)
  | [] => []
  | [r] => rangeLines r.1 r.2
  | r :: r2 :: rs => rangeLines r.1 r.2 ++ (-1, true) :: emitRanges (r2 :: rs)

/-- Embedding of `_get_extended_line_range`. -/
def _get_extended_line_range (line_numbers : Finset Int) (max_lines context_lines : Int) :
    List (Int × Bool) :=
  if line_numbers = ∅ then []
  else emitRanges (merge_overlapping_ranges
    ((line_numbers.sort (· ≤ ·)).map (fun line_num =>
      (max 1 (line_num - context_lines), min max_lines (line_num + context_lines)))))

/-- Windower as the specification words it: build the candidate window
`[max(1, L - context), min(file_line_count, L + context)]` for every
interesting line, sort the candidates by window start, merge a candidate into
the current window exactly when its start is at most the current end plus 1
(the merged end being the max of the two ends), and emit every line of each
merged window with one separator between consecutive windows. -/
def specWindows (line_numbers : Finset Int) (max_lines context : Int) :
    List (Int × Bool) :=
  emitRanges (merge_overlapping_ranges
    (((line_numbers.sort (· ≤ ·)).map (fun l =>
        (max 1 (l - context), min max_lines (l + context)))).mergeSort
      (fun a b => decide (a.1 ≤ b.1))))

/-! ### C8: the concrete gap example -/

lemma sort_pair_5_50 : ({5, 50} : Finset Int).sort (· ≤ ·) = [5, 50] := by
  rw [show ({5, 50} : Finset Int) = insert 5 {50} from rfl,
    Finset.sort_insert (· ≤ ·) (by decide) (by decide), Finset.sort_singleton]

/-- C8: on interesting lines 5 and 50 with context 2 in a 100-line file, the
windower returns lines 3..7, one separator, then lines 48..52. -/
theorem windower_gap_example :
    _get_extended_line_range {5, 50} 100 2 =
      ([(3, false), (4, false), (5, false), (6, false), (7, false), (-1, true),
        (48, false), (49, false), (50, false), (51, false), (52, false)] :
        List (Int × Bool)) := by
  rw [_get_extended_line_range, if_neg (by decide), sort_pair_5_50]
  decide

/-! ### C4: the windower refines the specified pipeline

The code sorts the interesting lines and pads each one, which yields the
candidate list already sorted by window start (padding is monotone), so
sorting the candidates again, as the spec words it, changes nothing. -/

lemma candidate_windows_sorted (line_numbers : Finset Int) (max_lines context : Int) :
    List.Pairwise (fun a b : Int × Int => (decide (a.1 ≤ b.1)) = true)
      ((line_numbers.sort (· ≤ ·)).map (fun l =>
        (max 1 (l - context), min max_lines (l + context)))) := by
  apply List.Pairwise.map
  · intro a b hab
    exact decide_eq_true (max_le_max le_rfl (sub_le_sub_right hab context))
  · exact Finset.sort_sorted (· ≤ ·) line_numbers

/-- C4: for every set of interesting lines, file line count and context, the
windower equals the specified pipeline — candidate windows
`[max(1, L - context), min(file_line_count, L + context)]` sorted by start,
merged exactly when the next start is at most the current end plus 1 with the
merged end the max of both ends, then emitted window by window with a single
separator between consecutive windows — and an empty set of interesting lines
yields the empty sequence. -/
theorem windower_refines_spec (line_numbers : Finset Int) (max_lines context : Int) :
    specWindows line_numbers max_lines context =
      _get_extended_line_range line_numbers max_lines context ∧
    _get_extended_line_range (∅ : Finset Int) max_lines context = [] := by
  constructor
  · rw [specWindows, List.mergeSort_of_sorted (candidate_windows_sorted ..),
      _get_extended_line_range]
    by_cases hs : line_numbers = ∅
    · subst hs
      rw [if_pos rfl, Finset.sort_empty]
      rfl
    · rw [if_neg hs]
  · rw [_get_extended_line_range, if_pos rfl]

/-! ### Emitted-range lemmas -/

/-- Non-separator line numbers of a display sequence. -/
def linesOut (l : List (Int × Bool)) : List Int :=
  (l.filter (fun p => !p.2)).map Prod.fst

lemma mem_rangeLines {start stop : Int} {p : Int × Bool} (h : p ∈ rangeLines start stop) :
    start ≤ p.1 ∧ p.1 ≤ stop ∧ p.2 = false := by
  rcases List.mem_map.mp h with ⟨i, hi, rfl⟩
  have hi' : (i : Int) < stop + 1 - start := Int.lt_toNat.mp (List.mem_range.mp hi)
  exact ⟨by omega, by omega, rfl⟩

lemma head?_rangeLines {start stop : Int} (h : start ≤ stop) :
    (rangeLines start stop).head? = some (start, false) := by
  have hn : (stop + 1 - start).toNat = (stop - start).toNat + 1 := by omega
  rw [rangeLines, hn, List.range_succ_eq_map]
  simp

lemma getLast?_rangeLines {start stop : Int} (h : start ≤ stop) :
    (rangeLines start stop).getLast? = some (stop, false) := by
  have hn : (stop + 1 - start).toNat = (stop - start).toNat + 1 := by omega
  rw [rangeLines, hn, List.range_succ, List.map_append, List.map_singleton,
    List.getLast?_concat]
  have htop : start + ((stop - start).toNat : Int) = stop := by omega
  rw [htop]

lemma linesOut_rangeLines {start stop : Int} :
    linesOut (rangeLines start stop) =
      (List.range (stop + 1 - start).toNat).map (fun (i : Nat) => start + (i : Int)) := by
  rw [linesOut, rangeLines, List.filter_map, List.map_map]
  have hfil : (List.range (stop + 1 - start).toNat).filter
      ((fun p : Int × Bool => !p.2) ∘ (fun i : Nat => (start + (i : Int), false))) =
      List.range (stop + 1 - start).toNat := by
    apply List.filter_eq_self.mpr
    intro a _
    rfl
  rw [hfil]
  rfl

lemma pairwise_linesOut_rangeLines {start stop : Int} :
    List.Pairwise (· < ·) (linesOut (rangeLines start stop)) := by
  rw [linesOut_rangeLines]
  refine List.Pairwise.map _ ?_ (List.pairwise_lt_range _)
  intro a b hab
  omega

lemma mem_linesOut_rangeLines {start stop x : Int}
    (h : x ∈ linesOut (rangeLines start stop)) : start ≤ x ∧ x ≤ stop := by
  rcases List.mem_map.mp h with ⟨p, hp, rfl⟩
  have hm := mem_rangeLines (List.mem_filter.mp hp).1
  exact ⟨hm.1, hm.2.1⟩

lemma chain'_contig_rangeLines {start stop : Int} :
    List.Chain' (fun a b : Int × Bool => a.2 = false → b.2 = false → b.1 = a.1 + 1)
      (rangeLines start stop) := by
  rw [rangeLines]
  apply (List.chain'_map _).mpr
  rcases hn : (stop + 1 - start).toNat with _ | k
  · exact List.chain'_nil
  · apply (List.chain'_range_succ _ k).mpr
    intro m _
    intro _ _
    push_cast
    ring

lemma chain'_of_all_false {l : List (Int × Bool)} (h : ∀ p ∈ l, p.2 = false)
    {R : Int × Bool → Int × Bool → Prop} (hR : ∀ a b, b.2 = false → R a b) :
    List.Chain' R l := by
  induction l with
  | nil => exact List.chain'_nil
  | cons p l ih =>
    apply List.chain'_cons'.mpr
    refine ⟨fun y hy => hR _ _ (h y (List.mem_cons_of_mem _ (List.mem_of_mem_head? hy))),
      ih (fun q hq => h q (List.mem_cons_of_mem _ hq))⟩

/-! ### Merge-loop lemmas -/

lemma mergeLoop_head : ∀ (l : List (Int × Int)) (cur : Int × Int),
    ∃ e rest, mergeLoop cur l = (cur.1, e) :: rest ∧ cur.2 ≤ e := by
  intro l
  induction l with
  | nil =>
    intro cur
    exact ⟨cur.2, [], rfl, le_rfl⟩
  | cons p rest ih =>
    intro cur
    rcases p with ⟨s, e⟩
    by_cases h : s ≤ cur.2 + 1
    · rcases ih (cur.1, max cur.2 e) with ⟨e', rest', heq, hle⟩
      refine ⟨e', rest', ?_, le_trans (le_max_left _ _) hle⟩
      simp only [mergeLoop, if_pos h]
      exact heq
    · refine ⟨cur.2, mergeLoop (s, e) rest, ?_, le_rfl⟩
      simp only [mergeLoop, if_neg h]

lemma mergeLoop_ranges_nonempty : ∀ (l : List (Int × Int)) (cur : Int × Int),
    cur.1 ≤ cur.2 → (∀ r ∈ l, r.1 ≤ r.2) → ∀ r ∈ mergeLoop cur l, r.1 ≤ r.2 := by
  intro l
  induction l with
  | nil =>
    intro cur hc _ r hr
    simp only [mergeLoop] at hr
    rcases List.mem_singleton.mp hr with rfl
    exact hc
  | cons p rest ih =>
    intro cur hc hl r hr
    rcases p with ⟨s, e⟩
    simp only [mergeLoop] at hr
    by_cases h : s ≤ cur.2 + 1
    · rw [if_pos h] at hr
      exact ih (cur.1, max cur.2 e) (le_trans hc (le_max_left _ _))
        (fun q hq => hl q (List.mem_cons_of_mem _ hq)) r hr
    · rw [if_neg h] at hr
      rcases List.mem_cons.mp hr with rfl | hr'
      · exact hc
      · exact ih (s, e) (hl (s, e) (List.mem_cons_self ..))
          (fun q hq => hl q (List.mem_cons_of_mem _ hq)) r hr'

lemma mergeLoop_chain_sep : ∀ (l : List (Int × Int)) (cur : Int × Int),
    List.Chain' (fun a b : Int × Int => a.2 + 1 < b.1) (mergeLoop cur l) := by
  intro l
  induction l with
  | nil =>
    intro cur
    simp only [mergeLoop]
    exact List.chain'_singleton _
  | cons p rest ih =>
    intro cur
    rcases p with ⟨s, e⟩
    simp only [mergeLoop]
    by_cases h : s ≤ cur.2 + 1
    · rw [if_pos h]
      exact ih (cur.1, max cur.2 e)
    · rw [if_neg h]
      apply List.chain'_cons'.mpr
      refine ⟨?_, ih (s, e)⟩
      intro y hy
      rcases mergeLoop_head rest (s, e) with ⟨e', rest', heq, -⟩
      rw [heq, List.head?_cons, Option.mem_some_iff] at hy
      rw [← hy]
      exact lt_of_not_le h

/-! ### Emission lemmas -/

lemma emitRanges_head {rs : List (Int × Int)} {r : Int × Int} (h : r.1 ≤ r.2) :
    (emitRanges (r :: rs)).head? = some (r.1, false) := by
  cases rs with
  | nil =>
    rw [emitRanges]
    exact head?_rangeLines h
  | cons r2 rs' =>
    rw [emitRanges, List.head?_append, head?_rangeLines h]
    rfl

lemma emitRanges_getLast : ∀ (rs : List (Int × Int)) (r : Int × Int),
    (∀ q ∈ r :: rs, q.1 ≤ q.2) →
    ∃ n : Int, (emitRanges (r :: rs)).getLast? = some (n, false) := by
  intro rs
  induction rs with
  | nil =>
    intro r h
    refine ⟨r.2, ?_⟩
    rw [emitRanges]
    exact getLast?_rangeLines (h r (List.mem_cons_self ..))
  | cons r2 rs' ih =>
    intro r h
    rcases ih r2 (fun q hq => h q (List.mem_cons_of_mem _ hq)) with ⟨n, hn⟩
    refine ⟨n, ?_⟩
    rw [emitRanges, List.getLast?_append,
      show ((-1, true) : Int × Bool) :: emitRanges (r2 :: rs') =
        [((-1, true) : Int × Bool)] ++ emitRanges (r2 :: rs') from rfl,
      List.getLast?_append, hn]
    rfl

lemma emitRanges_chain_no_consec : ∀ (rs : List (Int × Int)),
    (∀ q ∈ rs, q.1 ≤ q.2) →
    List.Chain' (fun a b : Int × Bool => a.2 = true → b.2 = false) (emitRanges rs) := by
  intro rs
  induction rs with
  | nil =>
    intro _
    exact List.chain'_nil
  | cons r rs' ih =>
    intro h
    cases rs' with
    | nil =>
      rw [emitRanges]
      exact chain'_of_all_false (fun p hp => (mem_rangeLines hp).2.2) (fun a b hb _ => hb)
    | cons r2 rs'' =>
      rw [emitRanges]
      apply List.chain'_append.mpr
      refine ⟨chain'_of_all_false (fun p hp => (mem_rangeLines hp).2.2) (fun a b hb _ => hb),
        ?_, ?_⟩
      · apply List.chain'_cons'.mpr
        refine ⟨?_, ih (fun q hq => h q (List.mem_cons_of_mem _ hq))⟩
        intro y hy
        rw [emitRanges_head (h r2 (List.mem_cons_of_mem _ (List.mem_cons_self ..))),
          Option.mem_some_iff] at hy
        intro _
        rw [← hy]
      · intro x hx y hy
        rw [List.head?_cons, Option.mem_some_iff] at hy
        intro hx2
        have := (mem_rangeLines (List.mem_of_mem_getLast? hx)).2.2
        rw [hx2] at this
        cases this

lemma linesOut_append (l1 l2 : List (Int × Bool)) :
    linesOut (l1 ++ l2) = linesOut l1 ++ linesOut l2 := by
  rw [linesOut, linesOut, linesOut, List.filter_append, List.map_append]

lemma linesOut_sep_cons (l : List (Int × Bool)) :
    linesOut (((-1, true) : Int × Bool) :: l) = linesOut l := rfl

lemma emitRanges_linesOut_lower : ∀ (rs : List (Int × Int)) (r : Int × Int),
    (∀ q ∈ r :: rs, q.1 ≤ q.2) →
    List.Chain' (fun a b : Int × Int => a.2 + 1 < b.1) (r :: rs) →
    ∀ x ∈ linesOut (emitRanges (r :: rs)), r.1 ≤ x := by
  intro rs
  induction rs with
  | nil =>
    intro r h hc x hx
    rw [emitRanges] at hx
    exact (mem_linesOut_rangeLines hx).1
  | cons r2 rs' ih =>
    intro r h hc x hx
    rw [emitRanges, linesOut_append, linesOut_sep_cons] at hx
    rcases List.mem_append.mp hx with hx | hx
    · exact (mem_linesOut_rangeLines hx).1
    · have h2 := ih r2 (fun q hq => h q (List.mem_cons_of_mem _ hq))
        (List.chain'_cons.mp hc).2 x hx
      have hr12 : r.2 + 1 < r2.1 := (List.chain'_cons.mp hc).1
      have hr : r.1 ≤ r.2 := h r (List.mem_cons_self ..)
      omega

lemma emitRanges_pairwise_lt : ∀ (rs : List (Int × Int)),
    (∀ q ∈ rs, q.1 ≤ q.2) →
    List.Chain' (fun a b : Int × Int => a.2 + 1 < b.1) rs →
    List.Pairwise (· < ·) (linesOut (emitRanges rs)) := by
  intro rs
  induction rs with
  | nil =>
    intro _ _
    exact List.Pairwise.nil
  | cons r rs' ih =>
    intro h hc
    cases rs' with
    | nil =>
      rw [emitRanges]
      exact pairwise_linesOut_rangeLines
    | cons r2 rs'' =>
      rw [emitRanges, linesOut_append, linesOut_sep_cons]
      apply List.pairwise_append.mpr
      refine ⟨pairwise_linesOut_rangeLines,
        ih (fun q hq => h q (List.mem_cons_of_mem _ hq)) (List.chain'_cons.mp hc).2, ?_⟩
      intro a ha b hb
      have ha' := (mem_linesOut_rangeLines ha).2
      have hb' := emitRanges_linesOut_lower rs'' r2
        (fun q hq => h q (List.mem_cons_of_mem _ hq)) (List.chain'_cons.mp hc).2 b hb
      have h12 : r.2 + 1 < r2.1 := (List.chain'_cons.mp hc).1
      omega

lemma emitRanges_chain_contig : ∀ (rs : List (Int × Int)),
    List.Chain' (fun a b : Int × Bool => a.2 = false → b.2 = false → b.1 = a.1 + 1)
      (emitRanges rs) := by
  intro rs
  induction rs with
  | nil =>
    exact List.chain'_nil
  | cons r rs' ih =>
    cases rs' with
    | nil =>
      rw [emitRanges]
      exact chain'_contig_rangeLines
    | cons r2 rs'' =>
      rw [emitRanges]
      apply List.chain'_append.mpr
      refine ⟨chain'_contig_rangeLines, ?_, ?_⟩
      · apply List.chain'_cons'.mpr
        refine ⟨?_, ih⟩
        intro y hy hsep _
        cases hsep
      · intro x hx y hy
        rw [List.head?_cons, Option.mem_some_iff] at hy
        intro _ hyf
        rw [← hy] at hyf
        cases hyf

/-! ### C5 and C10: separator and monotonicity invariants

C5 as stated quantifies over every file line count and context, but with
`max_lines = 0` every candidate window clamps to an empty range and the
emission loop still prints one separator per gap, so a lone (or leading,
trailing, repeated) separator can appear.  The invariant holds once every
interesting line lies within the file and the context is non-negative. -/

/-- C5 counterexample: with interesting lines 5 and 50, context 0 and file
line count 0, both windows clamp to empty ranges and the output is a single
separator entry, so a separator appears first (and last). -/
theorem separator_first_counterexample :
    _get_extended_line_range {5, 50} 0 0 = ([(-1, true)] : List (Int × Bool)) := by
  rw [_get_extended_line_range, if_neg (by decide), sort_pair_5_50]
  decide

lemma candidate_windows_nonempty {line_numbers : Finset Int} {max_lines context : Int}
    (hc : 0 ≤ context) (hs : ∀ l ∈ line_numbers, 1 ≤ l ∧ l ≤ max_lines) :
    ∀ q ∈ (line_numbers.sort (· ≤ ·)).map (fun line_num =>
      (max 1 (line_num - context), min max_lines (line_num + context))), q.1 ≤ q.2 := by
  intro q hq
  rcases List.mem_map.mp hq with ⟨l, hl, rfl⟩
  have hl' := hs l ((Finset.mem_sort ((· ≤ ·) : Int → Int → Prop)).mp hl)
  have h1 : max 1 (l - context) ≤ l := max_le hl'.1 (by omega)
  have h2 : l ≤ min max_lines (l + context) := le_min hl'.2 (by omega)
  exact le_trans h1 h2

lemma sort_map_ne_nil {line_numbers : Finset Int} {max_lines context : Int}
    (hne : line_numbers ≠ ∅) :
    (line_numbers.sort (· ≤ ·)).map (fun line_num =>
      (max 1 (line_num - context), min max_lines (line_num + context))) ≠ [] := by
  intro h0
  rcases Finset.nonempty_iff_ne_empty.mpr hne with ⟨x, hx⟩
  have : x ∈ line_numbers.sort (· ≤ ·) := (Finset.mem_sort ((· ≤ ·) : Int → Int → Prop)).mpr hx
  rw [List.map_eq_nil_iff.mp h0] at this
  cases this

/-- C5 (amended): provided every interesting line lies between 1 and the file
line count and the context is non-negative, separator entries in the windower
output never appear consecutively, never appear first, and never appear
last. -/
theorem separator_invariants (line_numbers : Finset Int) (max_lines context : Int)
    (hc : 0 ≤ context) (hs : ∀ l ∈ line_numbers, 1 ≤ l ∧ l ≤ max_lines) :
    List.Chain' (fun a b : Int × Bool => a.2 = true → b.2 = false)
      (_get_extended_line_range line_numbers max_lines context) ∧
    (∀ p, (_get_extended_line_range line_numbers max_lines context).head? = some p →
      p.2 = false) ∧
    (∀ p, (_get_extended_line_range line_numbers max_lines context).getLast? = some p →
      p.2 = false) := by
  by_cases hempty : line_numbers = ∅
  · subst hempty
    rw [_get_extended_line_range, if_pos rfl]
    refine ⟨List.chain'_nil, ?_, ?_⟩
    · intro p hp
      cases hp
    · intro p hp
      cases hp
  · rw [_get_extended_line_range, if_neg hempty]
    rcases hcons : (line_numbers.sort (· ≤ ·)).map (fun line_num =>
        (max 1 (line_num - context), min max_lines (line_num + context))) with _ | ⟨r, rs⟩
    · exact absurd hcons (sort_map_ne_nil hempty)
    · have hwin := candidate_windows_nonempty hc hs
      rw [hcons] at hwin
      have hmerged : ∀ q ∈ mergeLoop r rs, q.1 ≤ q.2 :=
        mergeLoop_ranges_nonempty rs r (hwin r (List.mem_cons_self ..))
          (fun q hq => hwin q (List.mem_cons_of_mem _ hq))
      rcases mergeLoop_head rs r with ⟨e, rest, heq, -⟩
      rw [merge_overlapping_ranges, heq]
      rw [heq] at hmerged
      refine ⟨emitRanges_chain_no_consec _ hmerged, ?_, ?_⟩
      · intro p hp
        rw [emitRanges_head (hmerged (r.1, e) (List.mem_cons_self ..))] at hp
        rw [← Option.some.inj hp]
      · intro p hp
        rcases emitRanges_getLast rest (r.1, e) hmerged with ⟨n, hn⟩
        rw [hn] at hp
        rw [← Option.some.inj hp]

theorem separator_invariants_witness :
    List.Chain' (fun a b : Int × Bool => a.2 = true → b.2 = false)
      (_get_extended_line_range {5, 50} 100 2) :=
  (separator_invariants {5, 50} 100 2 (by decide) (by decide)).1

/-- C10: with a non-empty set of interesting lines all at least 1, a
non-negative context and a file line count at least every interesting line,
the non-separator line numbers of the windower output are strictly increasing
across the whole sequence (so no line appears twice), and adjacent
non-separator entries differ by exactly one, so the lines between two
consecutive separators form a contiguous range. -/
theorem window_lines_strict_and_contiguous (line_numbers : Finset Int)
    (max_lines context : Int) (hne : line_numbers.Nonempty) (hc : 0 ≤ context)
    (hs : ∀ l ∈ line_numbers, 1 ≤ l ∧ l ≤ max_lines) :
    List.Pairwise (· < ·)
      (linesOut (_get_extended_line_range line_numbers max_lines context)) ∧
    List.Chain' (fun a b : Int × Bool => a.2 = false → b.2 = false → b.1 = a.1 + 1)
      (_get_extended_line_range line_numbers max_lines context) := by
  have hempty : ¬ line_numbers = ∅ := Finset.nonempty_iff_ne_empty.mp hne
  rw [_get_extended_line_range, if_neg hempty]
  rcases hcons : (line_numbers.sort (· ≤ ·)).map (fun line_num =>
      (max 1 (line_num - context), min max_lines (line_num + context))) with _ | ⟨r, rs⟩
  · exact absurd hcons (sort_map_ne_nil hempty)
  · have hwin := candidate_windows_nonempty hc hs
    rw [hcons] at hwin
    have hmerged : ∀ q ∈ mergeLoop r rs, q.1 ≤ q.2 :=
      mergeLoop_ranges_nonempty rs r (hwin r (List.mem_cons_self ..))
        (fun q hq => hwin q (List.mem_cons_of_mem _ hq))
    rw [merge_overlapping_ranges]
    exact ⟨emitRanges_pairwise_lt _ hmerged (mergeLoop_chain_sep rs r),
      emitRanges_chain_contig _⟩

theorem window_lines_strict_and_contiguous_witness :
    List.Pairwise (· < ·) (linesOut (_get_extended_line_range {5, 50} 100 2)) :=
  (window_lines_strict_and_contiguous {5, 50} 100 2 ⟨5, by decide⟩
    (by decide) (by decide)).1

end JacocoDelta
